import Mathlib

/-!
Shallow embedding of the conversation session engine of the telegram-gpt
repository, together with theorems checking the natural-language
specification against it.

The embedding follows the source files:
* `src/conversation.rs` — turn-based `Conversation` (pending/complete turns,
  running `prompt_tokens` total, pruning to a token budget);
* `src/openrouter_api.rs` — `estimate_tokens` heuristic;
* `src/db.rs` — `load_history` and the per-field setters;
* `src/telegram.rs` — `bot_split_send` output chunker;
* `src/main.rs` — `mask_api_key`.

Machine integers (`usize`, `u64`) are modelled as `Nat`; Rust
`saturating_sub` on `usize` coincides with truncated `Nat` subtraction.
The external BPE tokenizer (`TokenCounter::count_text`) is modelled as an
abstract function `String → Nat`.
-/

namespace TgGpt

/-- Message roles, as used by `conversation::Message` and the genai chat
messages (`src/conversation.rs`, `src/db.rs`). -/
inductive MessageRole where
  | system
  | user
  | assistant
deriving DecidableEq, Repr

/-- A chat message: role plus text (`ChatMessage::user` / `ChatMessage::assistant`
construction in `src/conversation.rs`). -/
structure ChatMessage where
  role : MessageRole
  text : String
deriving DecidableEq, Repr

/-- `TokenizedMessage` from `src/conversation.rs`: a message together with its
token count as computed by the tokenizer at construction time. -/
structure TokenizedMessage where
  message : ChatMessage
  tokens : Nat
deriving DecidableEq, Repr

/-- `TokenizedMessage::new_user` (src/conversation.rs): count the text with the
tokenizer and wrap it as a user message. -/
def TokenizedMessage.new_user (tk : String → Nat) (text : String) : TokenizedMessage :=
  { message := { role := MessageRole.user, text := text }, tokens := tk text }

/-- `TokenizedMessage::new_assistant` (src/conversation.rs). -/
def TokenizedMessage.new_assistant (tk : String → Nat) (text : String) : TokenizedMessage :=
  { message := { role := MessageRole.assistant, text := text }, tokens := tk text }

/-- `ChatTurn` from `src/conversation.rs`: an id, the user message, and an
optional assistant message (absent = pending turn). -/
structure ChatTurn where
  id : Nat
  user : TokenizedMessage
  assistant : Option TokenizedMessage
deriving DecidableEq, Repr

/-- `ChatTurn::total_tokens`: user tokens plus assistant tokens (0 if absent). -/
def ChatTurn.total_tokens (t : ChatTurn) : Nat :=
  t.user.tokens + (t.assistant.map (fun msg => msg.tokens)).getD 0

/-- `ChatTurn::is_complete`: the assistant message is present. -/
def ChatTurn.is_complete (t : ChatTurn) : Bool :=
  t.assistant.isSome

/-- `Conversation` from `src/conversation.rs`. The `VecDeque<ChatTurn>` is
modelled as a `List` with the front at the head. -/
structure Conversation where
  next_turn_id : Nat := 0
  turns : List ChatTurn := []
  prompt_tokens : Nat := 0
deriving DecidableEq, Repr

/-- `Conversation::record_user_message` (src/conversation.rs): allocate the next
turn id, push a pending turn at the back, add the user tokens to
`prompt_tokens`; returns the new conversation and the new turn id. -/
def Conversation.record_user_message (tk : String → Nat) (c : Conversation)
    (user_text : String) : Conversation × Nat :=
  let turn_id := c.next_turn_id
  let user := TokenizedMessage.new_user tk user_text
  ({ next_turn_id := c.next_turn_id + 1,
     turns := c.turns ++ [{ id := turn_id, user := user, assistant := none }],
     prompt_tokens := c.prompt_tokens + user.tokens }, turn_id)

/-- Helper for `record_assistant_response`: set the assistant message on the
first turn whose id matches (mirroring `iter_mut().find`); the boolean reports
whether a turn was found. -/
def commitInTurns (a : TokenizedMessage) (turn_id : Nat) :
    List ChatTurn → List ChatTurn × Bool
  | [] => ([], false)
  | t :: rest =>
    if t.id = turn_id then ({ t with assistant := some a } :: rest, true)
    else
      let r := commitInTurns a turn_id rest
      (t :: r.1, r.2)

/-- `Conversation::record_assistant_response` (src/conversation.rs): find the
turn by id; if present, attach the assistant message and add its tokens to
`prompt_tokens`; otherwise do nothing. -/
def Conversation.record_assistant_response (tk : String → Nat) (c : Conversation)
    (turn_id : Nat) (answer : String) : Conversation :=
  let assistant := TokenizedMessage.new_assistant tk answer
  let r := commitInTurns assistant turn_id c.turns
  if r.2 then
    { c with turns := r.1, prompt_tokens := c.prompt_tokens + assistant.tokens }
  else c

/-- `Conversation::discard_turn` (src/conversation.rs): remove the first turn
with the given id, if any, and subtract its total tokens (saturating). -/
def Conversation.discard_turn (c : Conversation) (turn_id : Nat) : Conversation :=
  match c.turns.findIdx? (fun t => t.id = turn_id) with
  | some index =>
    match c.turns[index]? with
    | some removed_turn =>
      { c with turns := c.turns.eraseIdx index,
               prompt_tokens := c.prompt_tokens - removed_turn.total_tokens }
    | none => c
  | none => c

/-- Loop of `Conversation::prune_to_token_budget` (src/conversation.rs): while
over budget, pop the front turn if it is complete (subtracting its tokens,
saturating); stop when under budget, when the deque is empty, or when the
front turn is pending. -/
def pruneGo (max_prompt_tokens system_prompt_tokens : Nat) :
    List ChatTurn → Nat → List ChatTurn × Nat
  | [], prompt_tokens => ([], prompt_tokens)
  | t :: rest, prompt_tokens =>
    if prompt_tokens + system_prompt_tokens > max_prompt_tokens then
      if t.is_complete then
        pruneGo max_prompt_tokens system_prompt_tokens rest
          (prompt_tokens - t.total_tokens)
      else (t :: rest, prompt_tokens)
    else (t :: rest, prompt_tokens)

/-- `Conversation::prune_to_token_budget` (src/conversation.rs). -/
def Conversation.prune_to_token_budget (c : Conversation)
    (max_prompt_tokens system_prompt_tokens : Nat) : Conversation :=
  let r := pruneGo max_prompt_tokens system_prompt_tokens c.turns c.prompt_tokens
  { c with turns := r.1, prompt_tokens := r.2 }

/-- Operations of the turn lifecycle, for stating the running-total invariant
over arbitrary operation sequences. -/
inductive Op where
  | openTurn (text : String)
  | commitTurn (id : Nat) (text : String)
  | discardTurn (id : Nat)
  | pruneTurns (max_prompt_tokens system_prompt_tokens : Nat)
deriving Repr

/-- Apply one operation to a conversation (tokenizer `tk` abstract). -/
def applyOp (tk : String → Nat) (c : Conversation) : Op → Conversation
  | Op.openTurn text => (c.record_user_message tk text).1
  | Op.commitTurn id text => c.record_assistant_response tk id text
  | Op.discardTurn id => c.discard_turn id
  | Op.pruneTurns m s => c.prune_to_token_budget m s

/-- Run a sequence of operations from a starting conversation. -/
def runOps (tk : String → Nat) (c : Conversation) (ops : List Op) : Conversation :=
  ops.foldl (applyOp tk) c

/-- The spec invariant: the stored `prompt_tokens` equals the recomputed sum of
`total_tokens` over the current turns. -/
def tokenInvariant (c : Conversation) : Prop :=
  c.prompt_tokens = (c.turns.map ChatTurn.total_tokens).sum

/-- A step is token-safe unless it commits onto a turn that is already
complete (re-committing double-counts the replaced assistant tokens). -/
def opSafe (c : Conversation) : Op → Bool
  | Op.commitTurn id _ => c.turns.all (fun t => !(t.id == id) || !t.is_complete)
  | _ => true

/-- Every step of the sequence is token-safe in the state where it runs. -/
def safeOps (tk : String → Nat) (c : Conversation) : List Op → Bool
  | [] => true
  | op :: rest => opSafe c op && safeOps tk (applyOp tk c op) rest

/-- `estimate_tokens` from `src/openrouter_api.rs`: sum the UTF-8 byte lengths
and the message count, take ceil(bytes / 4) plus 10 tokens per message, then
scale by 5/4 (integer division) to reserve completion headroom. -/
def estimate_tokens (messages : List String) : Nat :=
  let acc := messages.foldl
    (fun p message => (p.1 + message.utf8ByteSize, p.2 + 1)) ((0 : Nat), (0 : Nat))
  let text_tokens := (acc.1 + 4 - 1) / 4
  let tokens := text_tokens + acc.2 * 10
  tokens * 5 / 4

/-- `conversation::Message` as consumed by `src/db.rs`: a role and a text. -/
structure Message where
  role : MessageRole
  text : String
deriving DecidableEq, Repr

/-- Loop of `load_history` (src/db.rs): walk the rows newest-first, push each
at the front of the history, and stop as soon as the estimate of the whole
history exceeds the budget (the overflowing message stays). -/
def loadHistoryGo (token_budget : Nat) :
    List Message → List Message → List Message
  | history, [] => history
  | history, m :: rest =>
    let history2 := m :: history
    if estimate_tokens (history2.map Message.text) > token_budget then history2
    else loadHistoryGo token_budget history2 rest

/-- `load_history` (src/db.rs): `stored` is the chat's history table in id
order (oldest first); the query reads it newest-first (`ORDER BY id DESC`)
and the loop pushes each row at the front. -/
def load_history (token_budget : Nat) (stored : List Message) : List Message :=
  loadHistoryGo token_budget [] stored.reverse

/-- One row of the `chats` table (src/db.rs). -/
structure ChatRow where
  chat_id : Int
  is_authorized : Bool
  is_admin : Bool
  openrouter_api_key : Option String
  model_id : Option String
  system_prompt : Option String
  user_name : Option String
deriving DecidableEq, Repr

/-- The `chats` table. -/
abbrev ChatsTable := List ChatRow

/-- Outcome of a persistence write: success, a `fatal_panic` (process exit),
or a recoverable error returned to the caller. -/
inductive DbWrite (α : Type) where
  | ok (val : α)
  | fatal (msg : String)
  | err (msg : String)
deriving DecidableEq, Repr

/-- `UPDATE chats SET ... WHERE chat_id = ?1`: apply `f` to every row whose id
matches and report the number of affected rows. -/
def updateRows (f : ChatRow → ChatRow) (chat_id : Int) (table : ChatsTable) :
    ChatsTable × Nat :=
  (table.map (fun r => if r.chat_id = chat_id then f r else r),
   (table.filter (fun r => r.chat_id = chat_id)).length)

/-- `set_openrouter_api_key` (src/db.rs): a row count other than 1 is a
`fatal_panic`. -/
def set_openrouter_api_key (chat_id : Int) (key : Option String)
    (table : ChatsTable) : DbWrite ChatsTable :=
  let r := updateRows (fun row => { row with openrouter_api_key := key }) chat_id table
  if r.2 ≠ 1 then DbWrite.fatal "failed to update api key" else DbWrite.ok r.1

/-- `set_model_id` (src/db.rs): a row count other than 1 is a `fatal_panic`. -/
def set_model_id (chat_id : Int) (model_id : Option String)
    (table : ChatsTable) : DbWrite ChatsTable :=
  let r := updateRows (fun row => { row with model_id := model_id }) chat_id table
  if r.2 ≠ 1 then DbWrite.fatal "failed to update model id" else DbWrite.ok r.1

/-- `set_system_prompt` (src/db.rs): a row count other than 1 is a
`fatal_panic`. -/
def set_system_prompt (chat_id : Int) (system_prompt : Option String)
    (table : ChatsTable) : DbWrite ChatsTable :=
  let r := updateRows (fun row => { row with system_prompt := system_prompt }) chat_id table
  if r.2 ≠ 1 then DbWrite.fatal "failed to update system prompt" else DbWrite.ok r.1

/-- `set_user_name` (src/db.rs): a row count other than 1 is a `fatal_panic`. -/
def set_user_name (chat_id : Int) (user_name : Option String)
    (table : ChatsTable) : DbWrite ChatsTable :=
  let r := updateRows (fun row => { row with user_name := user_name }) chat_id table
  if r.2 ≠ 1 then DbWrite.fatal "failed to update user name" else DbWrite.ok r.1

/-- `set_is_authorized` (src/db.rs): unlike the other setters, a row count
other than 1 produces an `anyhow::Error` returned to the caller. -/
def set_is_authorized (chat_id : Int) (is_authorized : Bool)
    (table : ChatsTable) : DbWrite ChatsTable :=
  let r := updateRows (fun row => { row with is_authorized := is_authorized }) chat_id table
  if r.2 = 1 then DbWrite.ok r.1 else DbWrite.err "failed to update is_authorized"

/-- UTF-8 byte length of a list of chars. -/
def byteLen (cs : List Char) : Nat :=
  (cs.map Char.utf8Size).sum

/-- Rust byte slice `&s[..i]`: the chars making up the first `i` bytes when
`i` is a char boundary, `none` (a panic) otherwise. -/
def takeBytes : List Char → Nat → Option (List Char)
  | _, 0 => some []
  | [], _ + 1 => none
  | c :: cs, i + 1 =>
    if c.utf8Size ≤ i + 1 then
      (takeBytes cs (i + 1 - c.utf8Size)).map (fun r => c :: r)
    else none

/-- Rust byte slice `&s[i..]`: the chars after the first `i` bytes when `i`
is a char boundary, `none` (a panic) otherwise. -/
def dropBytes : List Char → Nat → Option (List Char)
  | cs, 0 => some cs
  | [], _ + 1 => none
  | c :: cs, i + 1 =>
    if c.utf8Size ≤ i + 1 then dropBytes cs (i + 1 - c.utf8Size) else none

/-- `mask_api_key` (src/main.rs), with `none` standing for a byte-slice panic.
Indices are byte indices into the UTF-8 encoding, exactly as in the source. -/
def mask_api_key (key : List Char) : Option (List Char) :=
  let len := byteLen key
  if len ≤ 8 then
    let prefix_len := min len 3
    (takeBytes key prefix_len).map (fun p => p ++ "***".data)
  else
    let prefix_len := min len 11
    let suffix_len := min (max (len - prefix_len) 1) 3
    match takeBytes key prefix_len, dropBytes key (len - suffix_len) with
    | some p, some s => some (p ++ "...".data ++ s)
    | _, _ => none

/-- `TELEGRAM_MAX_MESSAGE_LENGTH` (src/telegram.rs). -/
def TELEGRAM_MAX_MESSAGE_LENGTH : Nat := 4096

/-- The separators of `bot_split_send`: `text.split_inclusive([' ', '\n'])`. -/
def isSepChar (c : Char) : Bool :=
  c = ' ' || c = '\n'

/-- Rust `split_inclusive`: split after each separator char; the final piece
may lack the trailing separator; the empty string yields no pieces. -/
def splitInclusive (isSep : Char → Bool) : List Char → List (List Char)
  | [] => []
  | c :: rest =>
    if isSep c then [c] :: splitInclusive isSep rest
    else
      match splitInclusive isSep rest with
      | [] => [[c]]
      | t :: ts => (c :: t) :: ts

/-- The char-by-char hard-split loop of `bot_split_send` for a token longer
than the limit: emit the chunk whenever it reaches `maxLen` chars, then push
the next char; returns the emitted chunks and the final chunk state. -/
def hardSplitLoop (maxLen : Nat) :
    List Char → List Char → List (List Char) × List Char
  | chunk, [] => ([], chunk)
  | chunk, ch :: rest =>
    if chunk.length = maxLen then
      let r := hardSplitLoop maxLen [ch] rest
      (chunk :: r.1, r.2)
    else hardSplitLoop maxLen (chunk ++ [ch]) rest

/-- One iteration of the token loop in `bot_split_send`: `st` is the pair of
(chunks sent so far, current buffer). An over-long token flushes the buffer
and is hard-split; otherwise the buffer is flushed when the token would
overflow it, and the token is appended. -/
def processToken (maxLen : Nat) (st : List (List Char) × List Char)
    (tok : List Char) : List (List Char) × List Char :=
  let sent := st.1
  let buffer := st.2
  if tok.length > maxLen then
    let sent1 := if buffer.isEmpty then sent else sent ++ [buffer]
    let r := hardSplitLoop maxLen [] tok
    let sent2 := sent1 ++ r.1
    let sent3 := if r.2.isEmpty then sent2 else sent2 ++ [r.2]
    (sent3, [])
  else
    let fl :=
      if buffer.length + tok.length > maxLen && !buffer.isEmpty then
        (sent ++ [buffer], ([] : List Char))
      else (sent, buffer)
    (fl.1, fl.2 ++ tok)

/-- Flush of the final buffer after the token loop of `bot_split_send`: the
buffer becomes the last chunk when non-empty. -/
def flushFinal (st : List (List Char) × List Char) : List (List Char) :=
  if st.2.isEmpty then st.1 else st.1 ++ [st.2]

/-- `bot_split_send` (src/telegram.rs) as the ordered list of message chunks it
sends: short texts are sent whole; longer texts are split on the inclusive
space/newline tokens with a greedy buffer and a hard split for over-long
tokens; a final non-empty buffer is flushed. -/
def bot_split_send (maxLen : Nat) (text : List Char) : List (List Char) :=
  if text.length ≤ maxLen then [text]
  else flushFinal ((splitInclusive isSepChar text).foldl (processToken maxLen) ([], []))

/-- The heuristic as the claim words it for a single message of `b` bytes:
`ceil(b / 4) + 10`, with no final scaling. Stated from the spec text, for
comparison with the implementation. -/
def claimedSingleMessageTokens (text : String) : Nat :=
  (text.utf8ByteSize + 4 - 1) / 4 + 10

/-- The write ended the process via `fatal_panic`. -/
def DbWrite.isFatal {α : Type} : DbWrite α → Bool
  | DbWrite.fatal _ => true
  | _ => false

/-- The write returned a recoverable error to the caller. -/
def DbWrite.isRecoverableErr {α : Type} : DbWrite α → Bool
  | DbWrite.err _ => true
  | _ => false

/-- Concrete pending turn of id 0 used by witnesses. -/
def pendingTurn0 : ChatTurn :=
  ⟨0, TokenizedMessage.new_user String.length "hi", none⟩

/-- Concrete conversation holding `pendingTurn0`. -/
def conv1 : Conversation :=
  ⟨1, [pendingTurn0], 2⟩

/-- Concrete complete turn used by the C2 witness. -/
def completeTurnA : ChatTurn :=
  ⟨0, TokenizedMessage.new_user String.length "a",
    some (TokenizedMessage.new_assistant String.length "x")⟩

/-- Concrete pending turn used by the C2 witness. -/
def pendingTurnB : ChatTurn :=
  ⟨1, TokenizedMessage.new_user String.length "b", none⟩

/-- Concrete conversation with a complete front turn and a pending back turn. -/
def convAB : Conversation :=
  ⟨2, [completeTurnA, pendingTurnB], 3⟩

instance (c : Conversation) : Decidable (tokenInvariant c) := by
  unfold tokenInvariant
  infer_instance

/-- A chunk whose boundary is acceptable as a non-final chunk: it either ends
on a separator (the boundary fell on whitespace) or contains no separator at
all (a hard split inside one unbroken token, where no whitespace existed
within the limit). -/
def goodChunk (chunk : List Char) : Prop :=
  (∃ c, chunk.getLast? = some c ∧ isSepChar c = true) ∨
  ∀ c ∈ chunk, isSepChar c = false

/-! Helper lemmas about `estimate_tokens`. -/

theorem estimate_tokens_fold (messages : List String) (b n : Nat) :
    messages.foldl (fun p m => (p.1 + m.utf8ByteSize, p.2 + 1)) (b, n)
      = (b + (messages.map String.utf8ByteSize).sum, n + messages.length) := by
  induction messages generalizing b n with
  | nil => simp
  | cons m rest ih => simp [List.foldl_cons, ih]; omega

/-- Closed form of `estimate_tokens`: ceil of the summed byte count divided by
4, plus 10 per message, all scaled by 5/4 in integer arithmetic. -/
theorem estimate_tokens_eq (messages : List String) :
    estimate_tokens messages
      = (((messages.map String.utf8ByteSize).sum + 4 - 1) / 4
          + messages.length * 10) * 5 / 4 := by
  unfold estimate_tokens
  rw [estimate_tokens_fold]
  simp

/-- C6 counterexample: on the 4-byte message "abcd" the implementation returns
13, not the claimed ceil(4/4) + 10 = 11, because it additionally scales the
estimate by 5/4 (integer division) before returning. -/
theorem c6_counterexample :
    estimate_tokens ["abcd"] ≠ claimedSingleMessageTokens "abcd" := by decide

/-- C6 (amended): `estimate_tokens` computes ceil(byteLength/4) plus a fixed
overhead of 10 per message and then always scales the result by 5/4 in integer
arithmetic (the completion-headroom variant); for a single message of `b`
bytes it returns `(ceil(b/4) + 10) * 5 / 4`. -/
theorem c6_estimate_tokens_formula (messages : List String) (text : String) :
    estimate_tokens [text] = claimedSingleMessageTokens text * 5 / 4 ∧
    estimate_tokens messages
      = (((messages.map String.utf8ByteSize).sum + 4 - 1) / 4
          + messages.length * 10) * 5 / 4 := by
  refine ⟨?_, estimate_tokens_eq messages⟩
  rw [estimate_tokens_eq]
  simp [claimedSingleMessageTokens]

/-- C9 counterexample: on a row-count mismatch (no row for chat id 1 in an
empty table) `set_is_authorized` returns a recoverable error to the caller
instead of the claimed process-fatal storage inconsistency. -/
theorem c9_counterexample :
    (set_is_authorized 1 true []).isRecoverableErr = true ∧
    (set_is_authorized 1 true []).isFatal = false := by decide

/-- C9 (amended): each per-field setter updates exactly the rows matching the
chat id and succeeds exactly when that count is 1; on a row-count mismatch the
api-key, model-id, system-prompt and user-name setters are process-fatal,
while the authorization setter returns a recoverable error to the caller. -/
theorem c9_setters_row_count (chat_id : Int) (key model sys name : Option String)
    (b : Bool) (table : ChatsTable) :
    ((table.filter (fun r => r.chat_id = chat_id)).length = 1 →
       set_openrouter_api_key chat_id key table
         = DbWrite.ok (updateRows (fun row => { row with openrouter_api_key := key }) chat_id table).1 ∧
       set_model_id chat_id model table
         = DbWrite.ok (updateRows (fun row => { row with model_id := model }) chat_id table).1 ∧
       set_system_prompt chat_id sys table
         = DbWrite.ok (updateRows (fun row => { row with system_prompt := sys }) chat_id table).1 ∧
       set_user_name chat_id name table
         = DbWrite.ok (updateRows (fun row => { row with user_name := name }) chat_id table).1 ∧
       set_is_authorized chat_id b table
         = DbWrite.ok (updateRows (fun row => { row with is_authorized := b }) chat_id table).1) ∧
    ((table.filter (fun r => r.chat_id = chat_id)).length ≠ 1 →
       (set_openrouter_api_key chat_id key table).isFatal = true ∧
       (set_model_id chat_id model table).isFatal = true ∧
       (set_system_prompt chat_id sys table).isFatal = true ∧
       (set_user_name chat_id name table).isFatal = true ∧
       (set_is_authorized chat_id b table).isRecoverableErr = true) ∧
    (∀ (f : ChatRow → ChatRow) (i : Nat) (row : ChatRow), table[i]? = some row →
       row.chat_id ≠ chat_id → (updateRows f chat_id table).1[i]? = some row) := by
  refine ⟨fun h => ?_, fun h => ?_, fun f i row hrow hne => ?_⟩
  · simp [set_openrouter_api_key, set_model_id, set_system_prompt, set_user_name,
      set_is_authorized, updateRows, h]
  · simp [set_openrouter_api_key, set_model_id, set_system_prompt, set_user_name,
      set_is_authorized, updateRows, h, DbWrite.isFatal, DbWrite.isRecoverableErr]
  · simp [updateRows, List.getElem?_map, hrow, hne]

/-- C9 witness: on a one-row table the api-key setter succeeds, and on the
empty table (count 0 ≠ 1) the authorization setter yields a recoverable
error. -/
theorem c9_witness :
    set_openrouter_api_key 7 (some "k")
        [{ chat_id := 7, is_authorized := true, is_admin := false,
           openrouter_api_key := none, model_id := none,
           system_prompt := none, user_name := none }]
      = DbWrite.ok
        [{ chat_id := 7, is_authorized := true, is_admin := false,
           openrouter_api_key := some "k", model_id := none,
           system_prompt := none, user_name := none }] ∧
    (set_is_authorized 3 false []).isRecoverableErr = true := by
  constructor
  · have h := (c9_setters_row_count 7 (some "k") none none none true
      [{ chat_id := 7, is_authorized := true, is_admin := false,
         openrouter_api_key := none, model_id := none,
         system_prompt := none, user_name := none }]).1 (by decide)
    exact h.1.trans (by decide)
  · exact ((c9_setters_row_count 3 none none none none false []).2.1
      (by decide)).2.2.2.2

/-- C10: `mask_api_key` panics on the 4-byte key "éé": the short-key branch
slices `&key[..3]`, and byte index 3 is not a UTF-8 char boundary (the
boundaries of "éé" are 0, 2 and 4), so the byte-index slice panics. -/
theorem c10_mask_api_key_panics :
    mask_api_key ['é', 'é'] = none ∧ mask_api_key "abcdef".data ≠ none := by decide

/-! Helper lemmas for the turn lifecycle. -/

theorem findIdx?_append_last {α : Type} (p : α → Bool) (l : List α) (x : α)
    (h : ∀ t ∈ l, p t = false) (hx : p x = true) :
    (l ++ [x]).findIdx? p = some l.length := by
  induction l with
  | nil => simp [List.findIdx?_cons, hx]
  | cons a rest ih =>
    have ha : p a = false := h a (by simp)
    have ih2 := ih (fun t ht => h t (by simp [ht]))
    simp [List.findIdx?_cons, ha, List.findIdx?_succ, ih2]

theorem eraseIdx_append_last {α : Type} (l : List α) (x : α) :
    (l ++ [x]).eraseIdx l.length = l := by
  induction l with
  | nil => rfl
  | cons a rest ih => simp [List.eraseIdx, ih]

/-- C4: opening a pending turn with `record_user_message` and immediately
discarding the returned id with `discard_turn` restores both the turns
sequence and the prompt token total to their pre-open values (provided, as for
every conversation built through this interface, no existing turn already
carries the next fresh id). -/
theorem c4_open_then_discard (tk : String → Nat) (c : Conversation) (text : String)
    (h : ∀ t ∈ c.turns, t.id ≠ c.next_turn_id) :
    ((c.record_user_message tk text).1.discard_turn
        (c.record_user_message tk text).2).turns = c.turns ∧
    ((c.record_user_message tk text).1.discard_turn
        (c.record_user_message tk text).2).prompt_tokens = c.prompt_tokens := by
  have hfind : (c.turns
      ++ [(⟨c.next_turn_id, TokenizedMessage.new_user tk text, none⟩ : ChatTurn)]).findIdx?
        (fun t => t.id = c.next_turn_id) = some c.turns.length := by
    refine findIdx?_append_last _ _ _ (fun t ht => ?_) (by simp)
    simpa using h t ht
  have hget : (c.turns
      ++ [(⟨c.next_turn_id, TokenizedMessage.new_user tk text, none⟩ : ChatTurn)])[c.turns.length]?
      = some (⟨c.next_turn_id, TokenizedMessage.new_user tk text, none⟩ : ChatTurn) :=
    List.getElem?_concat_length _ _
  simp only [TokenizedMessage.new_user] at hfind hget
  constructor
  · simp only [Conversation.record_user_message, Conversation.discard_turn,
      TokenizedMessage.new_user, hfind, hget, eraseIdx_append_last]
  · simp only [Conversation.record_user_message, Conversation.discard_turn,
      TokenizedMessage.new_user, hfind, hget, eraseIdx_append_last, ChatTurn.total_tokens]
    simp

/-- C4 witness: on the empty conversation with tokenizer `String.length`,
opening and discarding restores the empty turn list and zero total. -/
theorem c4_witness :
    (((Conversation.record_user_message String.length {} "hi").1.discard_turn
        (Conversation.record_user_message String.length {} "hi").2).turns = [] ∧
     ((Conversation.record_user_message String.length {} "hi").1.discard_turn
        (Conversation.record_user_message String.length {} "hi").2).prompt_tokens = 0) :=
  c4_open_then_discard String.length {} "hi" (by simp)

theorem commitInTurns_not_found (a : TokenizedMessage) (tid : Nat) (l : List ChatTurn)
    (h : ∀ t ∈ l, t.id ≠ tid) : commitInTurns a tid l = (l, false) := by
  induction l with
  | nil => rfl
  | cons t rest ih =>
    have ht : ¬t.id = tid := h t (by simp)
    have ih2 := ih (fun u hu => h u (by simp [hu]))
    simp [commitInTurns, ht, ih2]

theorem commitInTurns_found (a : TokenizedMessage) (tid : Nat)
    (l₁ : List ChatTurn) (t : ChatTurn) (l₂ : List ChatTurn)
    (ht : t.id = tid) (h : ∀ u ∈ l₁, u.id ≠ tid) :
    commitInTurns a tid (l₁ ++ t :: l₂)
      = (l₁ ++ { t with assistant := some a } :: l₂, true) := by
  induction l₁ with
  | nil => simp [commitInTurns, ht]
  | cons u rest ih =>
    have hu : ¬u.id = tid := h u (by simp)
    have ih2 := ih (fun v hv => h v (by simp [hv]))
    simp [commitInTurns, hu, ih2]

/-- C5: `record_assistant_response` with an id absent from the conversation is
a no-op returning the conversation unchanged (never fatal); with the id
present it attaches the assistant message to that turn and adds the assistant
message's token cost to the prompt token total, leaving everything else
unchanged. -/
theorem c5_record_assistant_response (tk : String → Nat) (c : Conversation)
    (turn_id : Nat) (answer : String) :
    ((∀ t ∈ c.turns, t.id ≠ turn_id) →
       c.record_assistant_response tk turn_id answer = c) ∧
    (∀ l₁ t l₂, c.turns = l₁ ++ t :: l₂ → t.id = turn_id →
       (∀ u ∈ l₁, u.id ≠ turn_id) →
       (c.record_assistant_response tk turn_id answer).turns
         = l₁ ++ { t with assistant := some (TokenizedMessage.new_assistant tk answer) } :: l₂ ∧
       (c.record_assistant_response tk turn_id answer).prompt_tokens
         = c.prompt_tokens + tk answer ∧
       (c.record_assistant_response tk turn_id answer).next_turn_id
         = c.next_turn_id) := by
  constructor
  · intro h
    simp [Conversation.record_assistant_response,
      commitInTurns_not_found (TokenizedMessage.new_assistant tk answer) turn_id c.turns h]
  · intro l₁ t l₂ hsplit ht hl₁
    have hfound := commitInTurns_found
      (TokenizedMessage.new_assistant tk answer) turn_id l₁ t l₂ ht hl₁
    simp only [TokenizedMessage.new_assistant] at hfound
    refine ⟨?_, ?_, ?_⟩ <;>
      simp [Conversation.record_assistant_response, hsplit,
        TokenizedMessage.new_assistant, hfound]

/-- C5 witness: with one pending turn of id 0, committing id 5 is a no-op and
committing id 0 adds the answer's token count. -/
theorem c5_witness :
    Conversation.record_assistant_response String.length conv1 5 "yo" = conv1 ∧
    (Conversation.record_assistant_response String.length conv1 0 "yo").prompt_tokens = 4 := by
  constructor
  · exact (c5_record_assistant_response String.length conv1 5 "yo").1 (by decide)
  · have h := ((c5_record_assistant_response String.length conv1 0 "yo").2
      [] pendingTurn0 [] rfl rfl (by simp)).2.1
    simpa using h

/-! Helper lemmas for the pruner. -/

theorem pruneGo_shape (m s : Nat) (l : List ChatTurn) (pt : Nat) :
    ∃ k, (pruneGo m s l pt).1 = l.drop k ∧
      ∀ t ∈ l.take k, t.is_complete = true := by
  induction l generalizing pt with
  | nil => exact ⟨0, rfl, by simp⟩
  | cons t rest ih =>
    by_cases hgt : pt + s > m
    · by_cases hc : t.is_complete
      · obtain ⟨k, hk1, hk2⟩ := ih (pt - t.total_tokens)
        refine ⟨k + 1, ?_, ?_⟩
        · simpa [pruneGo, hgt, hc] using hk1
        · intro u hu
          rcases List.mem_cons.mp (by simpa using hu) with h | h
          · exact h ▸ hc
          · exact hk2 u h
      · exact ⟨0, by simp [pruneGo, hgt, hc], by simp⟩
    · exact ⟨0, by simp [pruneGo, hgt], by simp⟩

/-- C2: pruning only evicts complete turns from the front — the surviving
turns are a suffix of the original sequence, every evicted turn was complete,
and any pending turn present before the prune is still present after it, for
every budget. -/
theorem c2_prune_never_removes_pending (c : Conversation)
    (max_prompt_tokens system_prompt_tokens : Nat) :
    (∃ k, (c.prune_to_token_budget max_prompt_tokens system_prompt_tokens).turns
            = c.turns.drop k ∧
          ∀ t ∈ c.turns.take k, t.is_complete = true) ∧
    (∀ t ∈ c.turns, t.assistant = none →
       t ∈ (c.prune_to_token_budget max_prompt_tokens system_prompt_tokens).turns) := by
  obtain ⟨k, hk1, hk2⟩ :=
    pruneGo_shape max_prompt_tokens system_prompt_tokens c.turns c.prompt_tokens
  have hturns : (c.prune_to_token_budget max_prompt_tokens system_prompt_tokens).turns
      = c.turns.drop k := hk1
  refine ⟨⟨k, hturns, hk2⟩, fun t ht hpend => ?_⟩
  rw [hturns]
  rcases List.mem_append.mp ((List.take_append_drop k c.turns) ▸ ht) with h | h
  · have := hk2 t h
    simp [ChatTurn.is_complete, hpend] at this
  · exact h

/-- C2 witness: with one complete and one pending turn and budget 0, the
pending turn survives the prune. -/
theorem c2_witness :
    pendingTurnB ∈ (Conversation.prune_to_token_budget convAB 0 0).turns :=
  (c2_prune_never_removes_pending convAB 0 0).2 pendingTurnB (by decide) rfl

/-! Helper lemmas for the running-total invariant (C1). -/

theorem commitInTurns_of_not_found (a : TokenizedMessage) (tid : Nat)
    (l : List ChatTurn) (h : (commitInTurns a tid l).2 = false) :
    (commitInTurns a tid l).1 = l := by
  induction l with
  | nil => rfl
  | cons t rest ih =>
    by_cases ht : t.id = tid
    · simp [commitInTurns, ht] at h
    · simp only [commitInTurns, ht, if_false, ite_false] at h ⊢
      simpa using ih (by simpa using h)

theorem commitInTurns_sum (a : TokenizedMessage) (tid : Nat) (l : List ChatTurn)
    (hsafe : ∀ t ∈ l, t.id = tid → t.assistant = none)
    (h : (commitInTurns a tid l).2 = true) :
    ((commitInTurns a tid l).1.map ChatTurn.total_tokens).sum
      = (l.map ChatTurn.total_tokens).sum + a.tokens := by
  induction l with
  | nil => simp [commitInTurns] at h
  | cons t rest ih =>
    by_cases ht : t.id = tid
    · have hnone : t.assistant = none := hsafe t (by simp) ht
      simp [commitInTurns, ht, ChatTurn.total_tokens, hnone]
      omega
    · simp only [commitInTurns, ht, if_false, ite_false] at h ⊢
      have ih2 := ih (fun u hu => hsafe u (by simp [hu])) (by simpa using h)
      simp [ih2]
      omega

theorem sum_eraseIdx (l : List ChatTurn) (i : Nat) (x : ChatTurn)
    (h : l[i]? = some x) :
    (l.map ChatTurn.total_tokens).sum
      = x.total_tokens + ((l.eraseIdx i).map ChatTurn.total_tokens).sum := by
  induction l generalizing i with
  | nil => simp at h
  | cons a rest ih =>
    cases i with
    | zero =>
      simp at h
      simp [h]
    | succ j =>
      simp at h
      have := ih j h
      simp [List.eraseIdx, this]
      omega

theorem pruneGo_sum (m s : Nat) (l : List ChatTurn) (pt : Nat)
    (h : pt = (l.map ChatTurn.total_tokens).sum) :
    (pruneGo m s l pt).2 = ((pruneGo m s l pt).1.map ChatTurn.total_tokens).sum := by
  induction l generalizing pt with
  | nil => simpa [pruneGo] using h
  | cons t rest ih =>
    by_cases hgt : pt + s > m
    · by_cases hc : t.is_complete
      · have hrec := ih (pt - t.total_tokens) (by simp at h; omega)
        simpa [pruneGo, hgt, hc] using hrec
      · simpa [pruneGo, hgt, hc] using h
    · simpa [pruneGo, hgt] using h

theorem applyOp_tokenInvariant (tk : String → Nat) (c : Conversation) (op : Op)
    (hinv : tokenInvariant c) (hsafe : opSafe c op = true) :
    tokenInvariant (applyOp tk c op) := by
  cases op with
  | openTurn text =>
    simp only [applyOp, Conversation.record_user_message, tokenInvariant] at hinv ⊢
    simp [ChatTurn.total_tokens, TokenizedMessage.new_user, hinv]
  | commitTurn id text =>
    simp only [applyOp, Conversation.record_assistant_response]
    by_cases hfound :
        (commitInTurns (TokenizedMessage.new_assistant tk text) id c.turns).2 = true
    · have hsafe2 : ∀ t ∈ c.turns, t.id = id → t.assistant = none := by
        intro t htmem htid
        simp only [opSafe, List.all_eq_true] at hsafe
        have := hsafe t htmem
        simp [htid, ChatTurn.is_complete] at this
        exact Option.not_isSome_iff_eq_none.mp (by simpa using this)
      have hsum := commitInTurns_sum (TokenizedMessage.new_assistant tk text) id
        c.turns hsafe2 hfound
      simp only [TokenizedMessage.new_assistant] at hfound hsum ⊢
      simp only [tokenInvariant] at hinv ⊢
      simp [hfound, hsum, hinv]
    · simp only [TokenizedMessage.new_assistant] at hfound ⊢
      simp only [tokenInvariant] at hinv ⊢
      simp [hfound]
      exact hinv
  | discardTurn id =>
    simp only [applyOp, Conversation.discard_turn]
    rcases hidx : List.findIdx? (fun t => decide (t.id = id)) c.turns with _ | index
    · simp only [hidx]
      exact hinv
    · rcases hget : c.turns[index]? with _ | x
      · simp only [hidx, hget]
        exact hinv
      · simp only [hidx, hget]
        have hx : x ∈ c.turns := List.getElem?_mem hget
        have hsum := sum_eraseIdx c.turns index x hget
        have hle : x.total_tokens ≤ (c.turns.map ChatTurn.total_tokens).sum :=
          List.single_le_sum (by simp) _ (List.mem_map_of_mem ChatTurn.total_tokens hx)
        simp only [tokenInvariant] at hinv ⊢
        simp only [hinv]
        omega
  | pruneTurns m s =>
    simp only [applyOp, Conversation.prune_to_token_budget, tokenInvariant] at hinv ⊢
    exact pruneGo_sum m s c.turns c.prompt_tokens hinv

/-- C1 counterexample: committing twice onto the same turn breaks the
invariant: `record_assistant_response` adds the new assistant's tokens to
`prompt_tokens` but replaces (rather than adds to) the turn's stored
assistant, so the stored total 4 differs from the recomputed sum 2 (with the
tokenizer counting string length). -/
theorem c1_counterexample :
    ¬ tokenInvariant (runOps String.length {}
      [Op.openTurn "a", Op.commitTurn 0 "bb", Op.commitTurn 0 "c"]) := by decide

/-- C1 (amended): for any sequence of open/commit/discard/prune operations in
which no commit targets a turn that is already complete, the stored
`prompt_tokens` equals the recomputed sum of `total_tokens` over the current
turns, from any starting conversation already satisfying the invariant. -/
theorem c1_token_invariant (tk : String → Nat) (ops : List Op) (c : Conversation)
    (hinv : tokenInvariant c) (hsafe : safeOps tk c ops = true) :
    tokenInvariant (runOps tk c ops) := by
  induction ops generalizing c with
  | nil => exact hinv
  | cons op rest ih =>
    simp only [safeOps, Bool.and_eq_true] at hsafe
    exact ih (applyOp tk c op)
      (applyOp_tokenInvariant tk c op hinv hsafe.1) hsafe.2

/-- C1 witness: a concrete safe open/commit/prune/discard sequence from the
empty conversation keeps the invariant. -/
theorem c1_witness :
    tokenInvariant (runOps String.length {}
      [Op.openTurn "hi", Op.commitTurn 0 "yo", Op.pruneTurns 0 0, Op.discardTurn 0]) :=
  c1_token_invariant String.length
    [Op.openTurn "hi", Op.commitTurn 0 "yo", Op.pruneTurns 0 0, Op.discardTurn 0]
    {} (by decide) (by decide)

/-! Helper lemmas for `load_history` (C7, C8). -/

theorem estimate_tokens_le_cons (x : String) (l : List String) :
    estimate_tokens l ≤ estimate_tokens (x :: l) := by
  rw [estimate_tokens_eq, estimate_tokens_eq]
  apply Nat.div_le_div_right
  apply Nat.mul_le_mul_right
  have h1 : ((l.map String.utf8ByteSize).sum + 4 - 1) / 4
      ≤ (((x :: l).map String.utf8ByteSize).sum + 4 - 1) / 4 := by
    apply Nat.div_le_div_right
    simp only [List.map_cons, List.sum_cons]
    omega
  have h2 : l.length * 10 ≤ (x :: l).length * 10 := by simp
  omega

theorem estimate_tokens_append_left (pre l : List String) :
    estimate_tokens l ≤ estimate_tokens (pre ++ l) := by
  induction pre with
  | nil => simp
  | cons x rest ih => exact le_trans ih (estimate_tokens_le_cons x (rest ++ l))

theorem estimate_tokens_suffix_le (l₁ l₂ : List Message) (h : l₁ <:+ l₂) :
    estimate_tokens (l₁.map Message.text) ≤ estimate_tokens (l₂.map Message.text) := by
  obtain ⟨pre, rfl⟩ := h
  rw [List.map_append]
  exact estimate_tokens_append_left (pre.map Message.text) (l₁.map Message.text)

theorem loadHistoryGo_shape (b : Nat) (rem acc : List Message) :
    ∃ pre, pre <+: rem ∧ loadHistoryGo b acc rem = pre.reverse ++ acc := by
  induction rem generalizing acc with
  | nil => exact ⟨[], by simp, rfl⟩
  | cons m rest ih =>
    by_cases hover : estimate_tokens ((m :: acc).map Message.text) > b
    · refine ⟨[m], ⟨rest, rfl⟩, ?_⟩
      simp only [loadHistoryGo]
      rw [if_pos hover]
      simp
    · obtain ⟨pre, hp, he⟩ := ih (m :: acc)
      refine ⟨m :: pre, ?_, ?_⟩
      · obtain ⟨suf, hs⟩ := hp
        exact ⟨suf, by simp [hs]⟩
      · simp only [loadHistoryGo]
        rw [if_neg hover, he]
        simp

theorem loadHistoryGo_tail_le (b : Nat) (rem : List Message) :
    ∀ acc, (acc = [] ∨ estimate_tokens (acc.map Message.text) ≤ b) →
      estimate_tokens (((loadHistoryGo b acc rem).drop 1).map Message.text) ≤ b := by
  induction rem with
  | nil =>
    intro acc hacc
    rcases hacc with rfl | hacc
    · simp [loadHistoryGo, estimate_tokens]
    · cases acc with
      | nil => simp [loadHistoryGo, estimate_tokens]
      | cons a t =>
        simp only [loadHistoryGo, List.drop_succ_cons, List.drop_zero]
        exact le_trans (estimate_tokens_le_cons a.text (t.map Message.text)) hacc
  | cons m rest ih =>
    intro acc hacc
    by_cases hover : estimate_tokens ((m :: acc).map Message.text) > b
    · simp only [loadHistoryGo, if_pos hover, List.drop_succ_cons, List.drop_zero]
      rcases hacc with rfl | hacc
      · simp [estimate_tokens]
      · exact hacc
    · simp only [loadHistoryGo, if_neg hover]
      exact ih (m :: acc) (Or.inr (by omega))

/-- C7 counterexample: with budget 0 and a single stored user message "hi",
`load_history` still loads that message, and the estimated token total of the
returned list is 13 > 0 — the result is not bounded by the budget. -/
theorem c7_counterexample :
    ¬ estimate_tokens ((load_history 0 [⟨MessageRole.user, "hi"⟩]).map Message.text) ≤ 0 := by
  decide

/-- C7 (amended): `load_history` returns a contiguous most-recent suffix of
the stored rows in oldest-first order (it scans newest-first and builds by
pushing at the front), and the token bound holds for all loaded messages
except the oldest one: the loop loads one message past the budget and keeps
it, so only the result minus its first (oldest) element is guaranteed within
the budget. -/
theorem c7_load_history_shape (token_budget : Nat) (stored : List Message) :
    (∃ k, load_history token_budget stored = stored.drop k) ∧
    estimate_tokens (((load_history token_budget stored).drop 1).map Message.text)
      ≤ token_budget := by
  constructor
  · obtain ⟨pre, hp, he⟩ := loadHistoryGo_shape token_budget stored.reverse []
    have hsuf : pre.reverse <:+ stored := by
      have h2 : pre.reverse.reverse <+: stored.reverse := by
        simpa using hp
      have := List.reverse_prefix.mp h2
      simpa using this
    obtain ⟨k, hk⟩ : ∃ k, pre.reverse = stored.drop k :=
      ⟨stored.length - pre.reverse.length, List.suffix_iff_eq_drop.mp hsuf⟩
    exact ⟨k, by simp [load_history, he, hk]⟩
  · exact loadHistoryGo_tail_le token_budget stored.reverse [] (Or.inl rfl)

theorem loadHistoryGo_all (b : Nat) (rem : List Message) :
    ∀ acc, (∀ k, estimate_tokens (((rem.take k).reverse ++ acc).map Message.text) ≤ b) →
      loadHistoryGo b acc rem = rem.reverse ++ acc := by
  induction rem with
  | nil => intro acc _; simp [loadHistoryGo]
  | cons m rest ih =>
    intro acc h
    have h1 : estimate_tokens ((m :: acc).map Message.text) ≤ b := by
      simpa using h 1
    have hover : ¬ estimate_tokens ((m :: acc).map Message.text) > b := by omega
    simp only [loadHistoryGo, if_neg hover]
    have h2 : ∀ k, estimate_tokens (((rest.take k).reverse ++ (m :: acc)).map Message.text) ≤ b := by
      intro k
      have := h (k + 1)
      simpa [List.take_succ_cons, List.reverse_cons, List.append_assoc] using this
    rw [ih (m :: acc) h2]
    simp

/-- The full-load case of `load_history`: when the estimate of the whole
stored list fits the budget, every row is loaded, in stored order. -/
theorem load_history_of_le (b : Nat) (stored : List Message)
    (h : estimate_tokens (stored.map Message.text) ≤ b) :
    load_history b stored = stored := by
  unfold load_history
  rw [loadHistoryGo_all b stored.reverse []]
  · simp
  · intro k
    have hsuf : (stored.reverse.take k).reverse <:+ stored := by
      have hp : stored.reverse.take k <+: stored.reverse := List.take_prefix k stored.reverse
      have h2 : (stored.reverse.take k).reverse.reverse <+: stored.reverse.reverse.reverse := by
        simpa using hp
      have := List.reverse_prefix.mp h2
      simpa using this
    simpa using le_trans (estimate_tokens_suffix_le _ stored hsuf) h

/-- C8 counterexample: a stored history ending in a dangling user message "c"
(never answered) is loaded in full under a large budget — the dangling message
is not omitted, contradicting the claimed drop-and-warn recovery. -/
theorem c8_counterexample :
    load_history 1000
      [⟨MessageRole.user, "a"⟩, ⟨MessageRole.assistant, "b"⟩, ⟨MessageRole.user, "c"⟩]
      ≠ [⟨MessageRole.user, "a"⟩, ⟨MessageRole.assistant, "b"⟩] := by decide

/-- C8 (amended): `load_history` applies no pairing check at all: a stored
history ending in a user message that was never followed by an assistant
message is returned in full (budget permitting), dangling user message
included, and no error is raised. -/
theorem c8_trailing_user_kept (b : Nat) (stored : List Message) (m : Message)
    (_hrole : m.role = MessageRole.user)
    (hb : estimate_tokens ((stored ++ [m]).map Message.text) ≤ b) :
    load_history b (stored ++ [m]) = stored ++ [m] :=
  load_history_of_le b (stored ++ [m]) hb

/-- C8 witness: the concrete dangling-user history is loaded in full. -/
theorem c8_witness :
    load_history 1000
      ([⟨MessageRole.user, "a"⟩, ⟨MessageRole.assistant, "b"⟩] ++ [⟨MessageRole.user, "c"⟩])
      = [⟨MessageRole.user, "a"⟩, ⟨MessageRole.assistant, "b"⟩] ++ [⟨MessageRole.user, "c"⟩] :=
  c8_trailing_user_kept 1000
    [⟨MessageRole.user, "a"⟩, ⟨MessageRole.assistant, "b"⟩]
    ⟨MessageRole.user, "c"⟩ rfl (by decide)

/-! Helper lemmas for the output chunker (C3). -/

theorem splitInclusive_flatten (p : Char → Bool) (l : List Char) :
    (splitInclusive p l).flatten = l := by
  induction l with
  | nil => rfl
  | cons c rest ih =>
    by_cases hc : p c = true
    · simp [splitInclusive, hc, ih]
    · rcases hs : splitInclusive p rest with _ | ⟨t, ts⟩
      · rw [hs] at ih
        simp at ih
        simp [splitInclusive, hc, hs, ih]
      · rw [hs] at ih
        simp only [List.flatten_cons] at ih
        simp [splitInclusive, hc, hs, ih]

theorem splitInclusive_ne_nil (p : Char → Bool) (l : List Char) :
    ∀ t ∈ splitInclusive p l, t ≠ [] := by
  induction l with
  | nil => simp [splitInclusive]
  | cons c rest ih =>
    by_cases hc : p c = true
    · intro t ht
      simp only [splitInclusive, if_pos hc, List.mem_cons] at ht
      rcases ht with rfl | ht
      · simp
      · exact ih t ht
    · rcases hs : splitInclusive p rest with _ | ⟨t0, ts⟩
      · intro t ht
        simp only [splitInclusive, if_neg hc, hs, List.mem_singleton] at ht
        simp [ht]
      · intro t ht
        simp only [splitInclusive, if_neg hc, hs, List.mem_cons] at ht
        rcases ht with rfl | ht
        · simp
        · exact ih t (by simp [hs, ht])

theorem splitInclusive_inner (p : Char → Bool) (l : List Char) :
    ∀ t ∈ splitInclusive p l, ∀ c ∈ t.dropLast, p c = false := by
  induction l with
  | nil => simp [splitInclusive]
  | cons c rest ih =>
    by_cases hc : p c = true
    · intro t ht
      simp only [splitInclusive, if_pos hc, List.mem_cons] at ht
      rcases ht with rfl | ht
      · simp
      · exact ih t ht
    · rcases hs : splitInclusive p rest with _ | ⟨t0, ts⟩
      · intro t ht
        simp only [splitInclusive, if_neg hc, hs, List.mem_singleton] at ht
        simp [ht]
      · intro t ht
        simp only [splitInclusive, if_neg hc, hs, List.mem_cons] at ht
        rcases ht with rfl | ht
        · have ht0 : t0 ≠ [] := splitInclusive_ne_nil p rest t0 (by simp [hs])
          rcases t0 with _ | ⟨d, t1⟩
          · exact absurd rfl ht0
          · intro x hx
            rw [List.dropLast_cons₂] at hx
            rcases List.mem_cons.mp hx with rfl | hx
            · simpa using hc
            · exact ih (d :: t1) (by simp [hs]) x hx
        · exact ih t (by simp [hs, ht])

theorem splitInclusive_dropLast_ends (p : Char → Bool) (l : List Char) :
    ∀ t ∈ (splitInclusive p l).dropLast, ∃ c, t.getLast? = some c ∧ p c = true := by
  induction l with
  | nil => simp [splitInclusive]
  | cons c rest ih =>
    by_cases hc : p c = true
    · rcases hs : splitInclusive p rest with _ | ⟨t0, ts⟩
      · simp [splitInclusive, if_pos hc, hs]
      · intro t ht
        rw [hs] at ih
        simp only [splitInclusive, if_pos hc, hs, List.dropLast_cons₂,
          List.mem_cons] at ht
        rcases ht with rfl | ht
        · exact ⟨c, rfl, hc⟩
        · exact ih t ht
    · rcases hs : splitInclusive p rest with _ | ⟨t0, ts⟩
      · simp [splitInclusive, if_neg hc, hs]
      · rcases hts : ts with _ | ⟨t1, ts1⟩
        · simp [splitInclusive, if_neg hc, hs, hts]
        · intro t ht
          rw [hs, hts] at ih
          simp only [splitInclusive, if_neg hc, hs, hts, List.dropLast_cons₂,
            List.mem_cons] at ht
          rcases ht with rfl | ht
          · have ht0 : t0 ≠ [] := splitInclusive_ne_nil p rest t0 (by simp [hs])
            obtain ⟨d, hd1, hd2⟩ := ih t0 (by
              rw [List.dropLast_cons₂]
              exact List.mem_cons_self t0 _)
            refine ⟨d, ?_, hd2⟩
            rcases t0 with _ | ⟨e, t2⟩
            · exact absurd rfl ht0
            · rw [List.getLast?_cons_cons]
              exact hd1
          · exact ih t (by
              rw [List.dropLast_cons₂]
              exact List.mem_cons_of_mem t0 ht)

theorem hardSplitLoop_flatten (m : Nat) (rest : List Char) :
    ∀ chunk, (hardSplitLoop m chunk rest).1.flatten ++ (hardSplitLoop m chunk rest).2
      = chunk ++ rest := by
  induction rest with
  | nil => intro chunk; simp [hardSplitLoop]
  | cons ch r ih =>
    intro chunk
    by_cases hl : chunk.length = m
    · simp only [hardSplitLoop, if_pos hl, List.flatten_cons, List.append_assoc]
      rw [ih [ch]]
      simp
    · simp only [hardSplitLoop, if_neg hl]
      rw [ih (chunk ++ [ch])]
      simp

theorem hardSplitLoop_lengths (m : Nat) (hm : 1 ≤ m) (rest : List Char) :
    ∀ chunk, chunk.length ≤ m →
      (∀ piece ∈ (hardSplitLoop m chunk rest).1, piece.length ≤ m) ∧
      (hardSplitLoop m chunk rest).2.length ≤ m := by
  induction rest with
  | nil => intro chunk hc; exact ⟨by simp [hardSplitLoop], by simpa [hardSplitLoop] using hc⟩
  | cons ch r ih =>
    intro chunk hc
    by_cases hl : chunk.length = m
    · have hrec := ih [ch] (by simpa using hm)
      simp only [hardSplitLoop, if_pos hl]
      refine ⟨fun piece hp => ?_, hrec.2⟩
      rcases List.mem_cons.mp hp with rfl | hp
      · omega
      · exact hrec.1 piece hp
    · have hrec := ih (chunk ++ [ch]) (by simp; omega)
      simp only [hardSplitLoop, if_neg hl]
      exact hrec

theorem hardSplitLoop_fin_ne (m : Nat) (rest : List Char) :
    ∀ chunk, chunk ≠ [] ∨ rest ≠ [] → (hardSplitLoop m chunk rest).2 ≠ [] := by
  induction rest with
  | nil =>
    intro chunk h
    rcases h with h | h
    · simpa [hardSplitLoop] using h
    · exact absurd rfl h
  | cons ch r ih =>
    intro chunk _
    by_cases hl : chunk.length = m
    · simp only [hardSplitLoop, if_pos hl]
      exact ih [ch] (Or.inl (by simp))
    · simp only [hardSplitLoop, if_neg hl]
      exact ih (chunk ++ [ch]) (Or.inl (by simp))

theorem hardSplitLoop_pieces_nonsep (m : Nat) (rest : List Char) :
    ∀ chunk, (∀ c ∈ chunk, isSepChar c = false) →
      (∀ c ∈ rest.dropLast, isSepChar c = false) →
      ∀ piece ∈ (hardSplitLoop m chunk rest).1, ∀ c ∈ piece, isSepChar c = false := by
  induction rest with
  | nil => intro chunk _ _; simp [hardSplitLoop]
  | cons ch r ih =>
    intro chunk hchunk hrest
    rcases hr : r with _ | ⟨ch2, r2⟩
    · by_cases hl : chunk.length = m
      · simp only [hardSplitLoop, if_pos hl]
        intro piece hp
        rcases List.mem_cons.mp hp with rfl | hp
        · exact hchunk
        · simp [hardSplitLoop] at hp
      · simp only [hardSplitLoop, if_neg hl]
        simp [hardSplitLoop]
    · subst hr
      have hch : isSepChar ch = false := by
        apply hrest
        rw [List.dropLast_cons₂]
        exact List.mem_cons_self ch _
      have hrest2 : ∀ c ∈ (ch2 :: r2).dropLast, isSepChar c = false := by
        intro c hcmem
        apply hrest
        rw [List.dropLast_cons₂]
        exact List.mem_cons_of_mem ch hcmem
      by_cases hl : chunk.length = m
      · simp only [hardSplitLoop, if_pos hl]
        intro piece hp
        rcases List.mem_cons.mp hp with rfl | hp
        · exact hchunk
        · exact ih [ch] (by simpa using hch) hrest2 piece hp
      · simp only [hardSplitLoop, if_neg hl]
        intro piece hp
        refine ih (chunk ++ [ch]) ?_ hrest2 piece hp
        intro c hcmem
        rcases List.mem_append.mp hcmem with h | h
        · exact hchunk c h
        · rw [List.mem_singleton.mp h]
          exact hch

theorem hardSplitLoop_fin_getLast (m : Nat) (tok : List Char) (h : tok ≠ []) :
    (hardSplitLoop m [] tok).2.getLast? = tok.getLast? := by
  have h1 := hardSplitLoop_flatten m tok []
  have h3 := hardSplitLoop_fin_ne m tok [] (Or.inr h)
  calc (hardSplitLoop m [] tok).2.getLast?
      = ((hardSplitLoop m [] tok).1.flatten ++ (hardSplitLoop m [] tok).2).getLast? :=
        (List.getLast?_append_of_ne_nil _ h3).symm
    _ = tok.getLast? := by rw [h1]; simp

theorem processToken_flatten (m : Nat) (sent : List (List Char)) (buffer tok : List Char) :
    (processToken m (sent, buffer) tok).1.flatten ++ (processToken m (sent, buffer) tok).2
      = sent.flatten ++ buffer ++ tok := by
  have h1 : (hardSplitLoop m [] tok).1.flatten ++ (hardSplitLoop m [] tok).2 = tok := by
    simpa using hardSplitLoop_flatten m tok []
  by_cases hlen : tok.length > m
  · conv_rhs => rw [← h1]
    by_cases hf : (hardSplitLoop m [] tok).2.isEmpty = true
    · have hf2 : (hardSplitLoop m [] tok).2 = [] := List.isEmpty_iff.mp hf
      rcases buffer with _ | ⟨b0, brest⟩ <;>
        simp [processToken, hlen, hf2]
    · rcases buffer with _ | ⟨b0, brest⟩ <;>
        simp [processToken, hlen, hf]
  · by_cases hcond : m < buffer.length + tok.length ∧ ¬buffer = []
    · simp [processToken, hlen, hcond]
    · simp [processToken, hlen, hcond]

theorem foldChunks_flatten (m : Nat) (toks : List (List Char)) :
    ∀ sent buffer,
      (flushFinal (toks.foldl (processToken m) (sent, buffer))).flatten
        = sent.flatten ++ buffer ++ toks.flatten := by
  induction toks with
  | nil =>
    intro sent buffer
    by_cases hb : buffer.isEmpty = true
    · have hb2 : buffer = [] := List.isEmpty_iff.mp hb
      simp [flushFinal, hb, hb2]
    · simp [flushFinal, hb]
  | cons tok rest ih =>
    intro sent buffer
    simp only [List.foldl_cons]
    have hstep := processToken_flatten m sent buffer tok
    calc (flushFinal (rest.foldl (processToken m) (processToken m (sent, buffer) tok))).flatten
        = (processToken m (sent, buffer) tok).1.flatten
            ++ (processToken m (sent, buffer) tok).2 ++ rest.flatten := by
          simpa using ih (processToken m (sent, buffer) tok).1
            (processToken m (sent, buffer) tok).2
      _ = sent.flatten ++ buffer ++ (tok :: rest).flatten := by
          rw [hstep]
          simp

/-- Membership in the sent list after one `processToken` step: every chunk was
already sent, is the flushed buffer, or is a hard-split piece (loop piece or
final piece). -/
theorem processToken_mem (m : Nat) (sent : List (List Char)) (buffer tok ch : List Char)
    (hch : ch ∈ (processToken m (sent, buffer) tok).1) :
    ch ∈ sent ∨ (ch = buffer ∧ buffer ≠ []) ∨ ch ∈ (hardSplitLoop m [] tok).1 ∨
      ch = (hardSplitLoop m [] tok).2 := by
  by_cases hlen : tok.length > m
  · by_cases hf : (hardSplitLoop m [] tok).2.isEmpty = true <;>
      rcases buffer with _ | ⟨b0, brest⟩ <;>
      simp [processToken, hlen, hf] at hch <;>
      tauto
  · by_cases hcond : m < buffer.length + tok.length ∧ ¬buffer = []
    · simp [processToken, hlen, hcond] at hch
      rcases hch with hch | hch
      · tauto
      · exact Or.inr (Or.inl ⟨hch, hcond.2⟩)
    · simp [processToken, hlen, hcond] at hch
      tauto

/-- The buffer after one `processToken` step. -/
theorem processToken_buffer (m : Nat) (sent : List (List Char)) (buffer tok : List Char) :
    (processToken m (sent, buffer) tok).2 = [] ∨
    (processToken m (sent, buffer) tok).2 = buffer ++ tok ∨
    (processToken m (sent, buffer) tok).2 = tok := by
  by_cases hlen : tok.length > m
  · left
    by_cases hf : (hardSplitLoop m [] tok).2.isEmpty = true <;>
      rcases buffer with _ | ⟨b0, brest⟩ <;>
      simp [processToken, hlen, hf]
  · by_cases hcond : m < buffer.length + tok.length ∧ ¬buffer = []
    · right; right
      simp [processToken, hlen, hcond]
    · right; left
      simp [processToken, hlen, hcond]

theorem processToken_lengths (m : Nat) (hm : 1 ≤ m) (sent : List (List Char))
    (buffer tok : List Char)
    (hsent : ∀ ch ∈ sent, ch.length ≤ m) (hbuf : buffer.length ≤ m) :
    (∀ ch ∈ (processToken m (sent, buffer) tok).1, ch.length ≤ m) ∧
    (processToken m (sent, buffer) tok).2.length ≤ m := by
  have hhsl := hardSplitLoop_lengths m hm tok [] (by simp)
  by_cases hlen : tok.length > m
  · constructor
    · intro ch hch
      rcases processToken_mem m sent buffer tok ch hch with h | h | h | h
      · exact hsent ch h
      · rw [h.1]; exact hbuf
      · exact hhsl.1 ch h
      · rw [h]; exact hhsl.2
    · by_cases hf : (hardSplitLoop m [] tok).2.isEmpty = true <;>
        rcases buffer with _ | ⟨b0, brest⟩ <;>
        simp [processToken, hlen, hf]
  · have htok : tok.length ≤ m := le_of_not_lt hlen
    constructor
    · intro ch hch
      rcases processToken_mem m sent buffer tok ch hch with h | h | h | h
      · exact hsent ch h
      · rw [h.1]; exact hbuf
      · exact hhsl.1 ch h
      · rw [h]; exact hhsl.2
    · by_cases hcond : m < buffer.length + tok.length ∧ ¬buffer = []
      · simp [processToken, hlen, hcond]
        omega
      · have hor : buffer.length + tok.length ≤ m ∨ buffer = [] := by
          by_cases hb : buffer = []
          · right; exact hb
          · left
            by_contra hgt
            exact hcond ⟨by omega, hb⟩
        simp [processToken, hlen, hcond]
        rcases hor with h | h
        · omega
        · subst h
          simpa using htok

theorem foldChunks_lengths (m : Nat) (hm : 1 ≤ m) (toks : List (List Char)) :
    ∀ sent buffer, (∀ ch ∈ sent, ch.length ≤ m) → buffer.length ≤ m →
      ∀ ch ∈ flushFinal (toks.foldl (processToken m) (sent, buffer)), ch.length ≤ m := by
  induction toks with
  | nil =>
    intro sent buffer hsent hbuf ch hch
    rcases buffer with _ | ⟨b0, brest⟩
    · simp only [List.foldl_nil, flushFinal, List.isEmpty_nil, if_true] at hch
      exact hsent ch hch
    · simp [List.foldl_nil, flushFinal] at hch
      rcases hch with hch | hch
      · exact hsent ch hch
      · rw [hch]; exact hbuf
  | cons tok rest ih =>
    intro sent buffer hsent hbuf ch hch
    have hstep := processToken_lengths m hm sent buffer tok hsent hbuf
    refine ih (processToken m (sent, buffer) tok).1 (processToken m (sent, buffer) tok).2
      hstep.1 hstep.2 ch ?_
    simpa using hch

theorem isEmpty_false_of_ne_nil {α : Type} {l : List α} (h : l ≠ []) :
    l.isEmpty = false := by
  cases l with
  | nil => exact absurd rfl h
  | cons a t => rfl

theorem flushFinal_of_ne_nil (st : List (List Char) × List Char) (h : st.2 ≠ []) :
    flushFinal st = st.1 ++ [st.2] := by
  simp [flushFinal, isEmpty_false_of_ne_nil h]

theorem flushFinal_of_nil (st : List (List Char) × List Char) (h : st.2 = []) :
    flushFinal st = st.1 := by
  simp [flushFinal, h]

theorem processToken_buffer_oversize (m : Nat) (sent : List (List Char))
    (buffer tok : List Char) (hlen : tok.length > m) :
    (processToken m (sent, buffer) tok).2 = [] := by
  by_cases hf : (hardSplitLoop m [] tok).2.isEmpty = true <;>
    rcases buffer with _ | ⟨b0, brest⟩ <;>
    simp [processToken, hlen, hf]

theorem processToken_buffer_small (m : Nat) (sent : List (List Char))
    (buffer tok : List Char) (hlen : ¬tok.length > m) :
    (processToken m (sent, buffer) tok).2 = buffer ++ tok ∨
    (processToken m (sent, buffer) tok).2 = tok := by
  by_cases hcond : m < buffer.length + tok.length ∧ ¬buffer = []
  · right
    simp [processToken, hlen, hcond]
  · left
    simp [processToken, hlen, hcond]

theorem processToken_mem_small (m : Nat) (sent : List (List Char))
    (buffer tok ch : List Char) (hlen : ¬tok.length > m)
    (hch : ch ∈ (processToken m (sent, buffer) tok).1) :
    ch ∈ sent ∨ (ch = buffer ∧ buffer ≠ []) := by
  by_cases hcond : m < buffer.length + tok.length ∧ ¬buffer = []
  · simp [processToken, hlen, hcond] at hch
    rcases hch with hch | hch
    · exact Or.inl hch
    · exact Or.inr ⟨hch, hcond.2⟩
  · simp [processToken, hlen, hcond] at hch
    exact Or.inl hch

/-- State update for the goodness invariant when a separator-terminated token
is processed: every flushed chunk is good, and the buffer stays empty or
separator-terminated. -/
theorem processToken_good_state (m : Nat) (sent : List (List Char)) (buffer tok : List Char)
    (hsent : ∀ ch ∈ sent, goodChunk ch)
    (hbuf : buffer = [] ∨ ∃ c, buffer.getLast? = some c ∧ isSepChar c = true)
    (htok_ne : tok ≠ [])
    (htok_inner : ∀ c ∈ tok.dropLast, isSepChar c = false)
    (htok_end : ∃ c, tok.getLast? = some c ∧ isSepChar c = true) :
    (∀ ch ∈ (processToken m (sent, buffer) tok).1, goodChunk ch) ∧
    ((processToken m (sent, buffer) tok).2 = [] ∨
      ∃ c, (processToken m (sent, buffer) tok).2.getLast? = some c ∧ isSepChar c = true) := by
  obtain ⟨c0, hc1, hc2⟩ := htok_end
  constructor
  · intro ch hch
    rcases processToken_mem m sent buffer tok ch hch with h | h | h | h
    · exact hsent ch h
    · rcases hbuf with hb | hb
      · exact absurd hb h.2
      · rw [h.1]
        exact Or.inl hb
    · exact Or.inr
        (fun c hc => hardSplitLoop_pieces_nonsep m tok [] (by simp) htok_inner ch h c hc)
    · refine Or.inl ⟨c0, ?_, hc2⟩
      rw [h, hardSplitLoop_fin_getLast m tok htok_ne]
      exact hc1
  · by_cases hlen : tok.length > m
    · exact Or.inl (processToken_buffer_oversize m sent buffer tok hlen)
    · refine Or.inr ⟨c0, ?_, hc2⟩
      rcases processToken_buffer_small m sent buffer tok hlen with h | h
      · rw [h, List.getLast?_append_of_ne_nil _ htok_ne]
        exact hc1
      · rw [h]
        exact hc1

theorem foldChunks_good (m : Nat) (toks : List (List Char)) :
    ∀ sent buffer,
      (∀ t ∈ toks.dropLast, ∃ c, t.getLast? = some c ∧ isSepChar c = true) →
      (∀ t ∈ toks, ∀ c ∈ t.dropLast, isSepChar c = false) →
      (∀ t ∈ toks, t ≠ []) →
      (∀ ch ∈ sent, goodChunk ch) →
      (buffer = [] ∨ ∃ c, buffer.getLast? = some c ∧ isSepChar c = true) →
      ∀ ch ∈ (flushFinal (toks.foldl (processToken m) (sent, buffer))).dropLast,
        goodChunk ch := by
  induction toks with
  | nil =>
    intro sent buffer _ _ _ hsent hbuf ch hch
    rcases buffer with _ | ⟨b0, brest⟩
    · rw [List.foldl_nil, flushFinal_of_nil _ rfl] at hch
      exact hsent ch ((List.dropLast_prefix sent).subset hch)
    · rw [List.foldl_nil, flushFinal_of_ne_nil _ (by simp), List.dropLast_concat] at hch
      exact hsent ch hch
  | cons tok rest ih =>
    intro sent buffer htoks1 htoks2 htoks3 hsent hbuf ch hch
    have htok_ne : tok ≠ [] := htoks3 tok (by simp)
    have htok_inner : ∀ c ∈ tok.dropLast, isSepChar c = false := htoks2 tok (by simp)
    cases rest with
    | nil =>
      rw [List.foldl_cons, List.foldl_nil] at hch
      by_cases hlen : tok.length > m
      · have hfin_ne : (hardSplitLoop m [] tok).2 ≠ [] :=
          hardSplitLoop_fin_ne m tok [] (Or.inr htok_ne)
        have hb0 := processToken_buffer_oversize m sent buffer tok hlen
        rw [flushFinal_of_nil _ hb0] at hch
        have houtput : (processToken m (sent, buffer) tok).1
            = ((if buffer.isEmpty then sent else sent ++ [buffer])
                ++ (hardSplitLoop m [] tok).1) ++ [(hardSplitLoop m [] tok).2] := by
          have hfinb := isEmpty_false_of_ne_nil hfin_ne
          simp only [processToken, if_pos hlen, hfinb, Bool.false_eq_true, if_false]
        rw [houtput, List.dropLast_concat] at hch
        rcases List.mem_append.mp hch with h | h
        · rcases buffer with _ | ⟨b0, brest⟩
          · simp only [List.isEmpty_nil, if_true] at h
            exact hsent ch h
          · simp only [List.isEmpty_cons, Bool.false_eq_true, if_false] at h
            rcases List.mem_append.mp h with h2 | h2
            · exact hsent ch h2
            · rcases hbuf with hb | hb
              · exact absurd hb (by simp)
              · rw [List.mem_singleton.mp h2]
                exact Or.inl hb
        · exact Or.inr
            (fun c hc => hardSplitLoop_pieces_nonsep m tok [] (by simp) htok_inner ch h c hc)
      · have hbne : (processToken m (sent, buffer) tok).2 ≠ [] := by
          rcases processToken_buffer_small m sent buffer tok hlen with h | h <;>
            simp [h, htok_ne]
        rw [flushFinal_of_ne_nil _ hbne, List.dropLast_concat] at hch
        rcases processToken_mem_small m sent buffer tok ch hlen hch with h | h
        · exact hsent ch h
        · rcases hbuf with hb | hb
          · exact absurd hb h.2
          · rw [h.1]
            exact Or.inl hb
    | cons tok2 rest2 =>
      have htok_end : ∃ c, tok.getLast? = some c ∧ isSepChar c = true := by
        apply htoks1 tok
        rw [List.dropLast_cons₂]
        exact List.mem_cons_self _ _
      have hstate := processToken_good_state m sent buffer tok hsent hbuf htok_ne
        htok_inner htok_end
      refine ih (processToken m (sent, buffer) tok).1 (processToken m (sent, buffer) tok).2
        (fun t ht => ?_) (fun t ht => htoks2 t (by simp [ht]))
        (fun t ht => htoks3 t (by simp [ht])) hstate.1 hstate.2 ch (by simpa using hch)
      apply htoks1 t
      rw [List.dropLast_cons₂]
      exact List.mem_cons_of_mem tok ht

/-- C3: for any text and any positive limit (4096 for the Telegram transport),
the non-streaming chunker `bot_split_send` produces an ordered chunk list
whose concatenation reproduces the text exactly, in which no chunk exceeds the
limit in code points, and in which every non-final chunk boundary falls on
whitespace (the chunk ends with a space or newline) except when the chunk
contains no whitespace at all — the hard split inside an unbroken over-long
token, where no whitespace existed within the limit. -/
theorem c3_bot_split_send_round_trip (maxLen : Nat) (text : List Char)
    (hm : 1 ≤ maxLen) :
    (bot_split_send maxLen text).flatten = text ∧
    (∀ chunk ∈ bot_split_send maxLen text, chunk.length ≤ maxLen) ∧
    (∀ chunk ∈ (bot_split_send maxLen text).dropLast, goodChunk chunk) := by
  by_cases hlen : text.length ≤ maxLen
  · rw [bot_split_send, if_pos hlen]
    refine ⟨by simp, ?_, by simp⟩
    intro chunk hc
    rw [List.mem_singleton.mp hc]
    exact hlen
  · rw [bot_split_send, if_neg hlen]
    refine ⟨?_, ?_, ?_⟩
    · rw [foldChunks_flatten]
      simp [splitInclusive_flatten]
    · intro chunk hc
      exact foldChunks_lengths maxLen hm (splitInclusive isSepChar text) [] []
        (by simp) (by simp) chunk hc
    · intro chunk hc
      exact foldChunks_good maxLen (splitInclusive isSepChar text) [] []
        (splitInclusive_dropLast_ends isSepChar text)
        (splitInclusive_inner isSepChar text)
        (splitInclusive_ne_nil isSepChar text)
        (by simp) (Or.inl rfl) chunk hc

/-- C3 witness: the round trip at limit 5 on "ab cd ef", plus the Telegram
limit being positive so the theorem applies at 4096. -/
theorem c3_witness :
    (bot_split_send 5 "ab cd ef".data).flatten = "ab cd ef".data ∧
    1 ≤ TELEGRAM_MAX_MESSAGE_LENGTH :=
  ⟨(c3_bot_split_send_round_trip 5 "ab cd ef".data (by decide)).1, by decide⟩

end TgGpt
